import Mathlib

/-!
Verification of the lexical scanner in `src/scanner.rs`.

The scanner is embedded shallowly: the Rust `Scanner` struct becomes a Lean
structure over `List Char` (the `Peekable<Chars>` iterator is represented by
the `current` index, exactly as in the source, where both always advance in
lock step), and every panic site of the Rust code (`panic!`, `todo!`,
`unwrap()` on slice/parse failures) becomes an `Except Panic` error value.
Rust slices strings by byte index while `start`/`current` count characters;
`byteSlice` models byte-indexed slicing of the UTF-8 encoding of the source,
including the panic on an index that is out of bounds or not a character
boundary.
-/

namespace Lox

/-- Token kinds, translated from the `TokenType` enum of `scanner.rs`. -/
inductive TokenType
  | leftParen
  | rightParen
  | leftBrace
  | rightBrace
  | comma
  | dot
  | minus
  | plus
  | semicolon
  | slash
  | star
  | bang
  | bangEqual
  | equal
  | equalEqual
  | greater
  | greaterEqual
  | less
  | lessEqual
  | identifier
  | string
  | number
  | and
  | «class»
  | «else»
  | «false»
  | «fun»
  | «for»
  | «if»
  | nil
  | or
  | print
  | «return»
  | super
  | this
  | «true»
  | var
  | «while»
  | eof
  deriving DecidableEq

/-- Literal values, from the `Literal` enum of `scanner.rs`. The Rust code
stores an `f64` in the `Float` case, parsed from the digit run; no claim here
depends on float arithmetic, so the float is represented by the exact string
that was passed to `str::parse::<f64>` (which determines it). -/
inductive Literal
  | empty
  | string (s : List Char)
  | float (s : List Char)
  deriving DecidableEq

/-- A token, from the `Token` struct of `scanner.rs`. The `source` field is
the lexeme. -/
structure Token where
  type : TokenType
  source : List Char
  literal : Literal
  line : Nat
  deriving DecidableEq

/-- The panic sites of the scanner. Rust panics are modelled as error values:
`sliceFault` is a string-slice index that is out of bounds or not a character
boundary, `unterminatedString` is the explicit panic in `handle_string`,
`todoDecimal` is the `todo!` in `handle_number`, `parseFault` is the
`unwrap()` of a failed `str::parse::<f64>`, and `advanceNone` is the
`unwrap()` of `advance()` in `scan_token` (unreachable from the scan loop,
which checks `is_at_end` first). -/
inductive Panic
  | sliceFault
  | unterminatedString
  | todoDecimal
  | parseFault
  | advanceNone
  deriving DecidableEq

/-- Scanner state, from the `Scanner` struct of `scanner.rs`. The
`chars: Peekable<Chars>` iterator always points at character index `current`
of `source` (both are initialized together and advance together), so it is
represented by `current` alone. -/
structure Scanner where
  source : List Char
  tokens : List Token
  start : Nat
  current : Nat
  line : Nat
  deriving DecidableEq

/-- UTF-8 byte length of a character. -/
def utf8Len (c : Char) : Nat :=
  if c.toNat < 0x80 then 1
  else if c.toNat < 0x800 then 2
  else if c.toNat < 0x10000 then 3
  else 4

/-- Byte offset of the character with index `n` in the UTF-8 encoding of `s`. -/
def byteIdx : List Char → Nat → Nat
  | _, 0 => 0
  | [], _ + 1 => 0
  | c :: rest, n + 1 => utf8Len c + byteIdx rest n

/-- The character index whose byte offset in the UTF-8 encoding of `s` is
exactly `b`, if `b` is a character boundary. -/
def charBoundary : List Char → Nat → Option Nat
  | _, 0 => some 0
  | [], _ + 1 => none
  | c :: rest, b + 1 =>
    if utf8Len c ≤ b + 1 then
      (charBoundary rest (b + 1 - utf8Len c)).map (· + 1)
    else none

/-- Rust's `&s[a..b]` on a string: the byte range `[a, b)` of the UTF-8
encoding, defined only when `a` and `b` are character boundaries in order;
`none` models the panic on an invalid slice index. -/
def byteSlice (s : List Char) (a b : Nat) : Option (List Char) :=
  match charBoundary s a, charBoundary s b with
  | some i, some j => if i ≤ j then some ((s.take j).drop i) else none
  | _, _ => none

/-- Rust `char::is_numeric` (Unicode categories Nd, Nl, No), modelled exactly
on the Latin-1 range: the ASCII digits and the Latin-1 numeric characters
U+00B2, U+00B3, U+00B9, U+00BC, U+00BD, U+00BE. Characters above U+00FF are
classified as non-numeric; every concrete source appearing in the theorems
below is Latin-1. -/
def rustIsNumeric (c : Char) : Bool :=
  (0x30 ≤ c.toNat && c.toNat ≤ 0x39) ||
  c.toNat == 0xB2 || c.toNat == 0xB3 || c.toNat == 0xB9 ||
  c.toNat == 0xBC || c.toNat == 0xBD || c.toNat == 0xBE

/-- Rust `char::is_alphabetic`, modelled exactly on the Latin-1 range: ASCII
letters, U+00AA, U+00B5, U+00BA, and the Latin-1 letters U+00C0–U+00FF except
the multiplication and division signs U+00D7 and U+00F7. Characters above
U+00FF are classified as non-alphabetic; every concrete source appearing in
the theorems below is Latin-1. -/
def rustIsAlphabetic (c : Char) : Bool :=
  (0x41 ≤ c.toNat && c.toNat ≤ 0x5A) ||
  (0x61 ≤ c.toNat && c.toNat ≤ 0x7A) ||
  c.toNat == 0xAA || c.toNat == 0xB5 || c.toNat == 0xBA ||
  (0xC0 ≤ c.toNat && c.toNat ≤ 0xD6) ||
  (0xD8 ≤ c.toNat && c.toNat ≤ 0xF6) ||
  (0xF8 ≤ c.toNat && c.toNat ≤ 0xFF)

/-- Rust `char::is_alphanumeric`: alphabetic or numeric. Note that this is
false for the underscore. -/
def rustIsAlphanumeric (c : Char) : Bool :=
  rustIsAlphabetic c || rustIsNumeric c

/-- Decimal digit, as used by the grammar of `str::parse::<f64>`. -/
def isAsciiDigit (c : Char) : Bool :=
  0x30 ≤ c.toNat && c.toNat ≤ 0x39

/-- ASCII lower-casing, used for the case-insensitive special values of the
float grammar. -/
def asciiLower (c : Char) : Char :=
  if 0x41 ≤ c.toNat ∧ c.toNat ≤ 0x5A then Char.ofNat (c.toNat + 0x20) else c

/-- Drop one leading sign character, if present. -/
def stripSign : List Char → List Char
  | [] => []
  | c :: rest => if c = '+' then rest else if c = '-' then rest else c :: rest

/-- A non-empty run of decimal digits. -/
def digits1 (l : List Char) : Bool :=
  !l.isEmpty && l.all isAsciiDigit

/-- A mantissa: digits with an optional decimal point, at least one digit. -/
def mantissaOk (l : List Char) : Bool :=
  let intPart := l.takeWhile isAsciiDigit
  match l.dropWhile isAsciiDigit with
  | [] => !intPart.isEmpty
  | '.' :: frac => (!intPart.isEmpty || !frac.isEmpty) && frac.all isAsciiDigit
  | _ => Bool.false

/-- Whether a string is accepted by Rust's `str::parse::<f64>`. Modelled from
the grammar documented for `f64::from_str`: an optional sign, then either one
of `inf`, `infinity`, `nan` (case-insensitive) or a mantissa made of digits
with an optional decimal point, followed by an optional exponent. Only
success of the parse is modelled; the parsed value is not. -/
def f64ParseOk (l : List Char) : Bool :=
  let l := stripSign l
  if l.map asciiLower = ['i', 'n', 'f'] ∨
      l.map asciiLower = ['i', 'n', 'f', 'i', 'n', 'i', 't', 'y'] ∨
      l.map asciiLower = ['n', 'a', 'n'] then
    Bool.true
  else
    let mant := l.takeWhile (fun c => c ≠ 'e' ∧ c ≠ 'E')
    match l.dropWhile (fun c => c ≠ 'e' ∧ c ≠ 'E') with
    | [] => mantissaOk mant
    | _ :: e => mantissaOk mant && digits1 (stripSign e)

/-- The entries of the `KEYWORDS` table of `scanner.rs`: the fixed map from
reserved-word spelling to token kind. The Rust `HashMap` with these 16
distinct keys is modelled as an association list. -/
def KEYWORDS_TABLE : List (List Char × TokenType) :=
  [ (("and".data), TokenType.and),
    (("class".data), TokenType.«class»),
    (("else".data), TokenType.«else»),
    (("false".data), TokenType.«false»),
    (("for".data), TokenType.«for»),
    (("fun".data), TokenType.«fun»),
    (("if".data), TokenType.«if»),
    (("nil".data), TokenType.nil),
    (("or".data), TokenType.or),
    (("print".data), TokenType.print),
    (("return".data), TokenType.«return»),
    (("super".data), TokenType.super),
    (("this".data), TokenType.this),
    (("true".data), TokenType.«true»),
    (("var".data), TokenType.var),
    (("while".data), TokenType.«while») ]

/-- `KEYWORDS.get(text)`: look a lexeme up in the keyword table. -/
def KEYWORDS (s : List Char) : Option TokenType :=
  (KEYWORDS_TABLE.find? (fun kv => kv.1 == s)).map (fun kv => kv.2)

/-- Count of newline characters in a list. -/
def countNl (l : List Char) : Nat :=
  l.count '\n'

namespace Scanner

/-- `Scanner::new`. -/
def new (source : List Char) : Scanner :=
  { source := source, tokens := [], start := 0, current := 0, line := 1 }

/-- `Scanner::peek`: the next unconsumed character, without consuming it. -/
def peek (st : Scanner) : Option Char :=
  st.source[st.current]?

/-- `Scanner::is_at_end`. -/
def isAtEnd (st : Scanner) : Bool :=
  st.peek.isNone

/-- The unconsumed suffix of the source (the position of the `chars`
iterator). -/
def remaining (st : Scanner) : List Char :=
  st.source.drop st.current

/-- `Scanner::advance`: consume and return the next character. -/
def advance (st : Scanner) : Option (Char × Scanner) :=
  match st.peek with
  | none => none
  | some c => some (c, { st with current := st.current + 1 })

/-- `Scanner::match` (written `r#match` in the source): consume the next
character only if it equals `expected`. -/
def «match» (st : Scanner) (expected : Char) : Bool × Scanner :=
  match st.peek with
  | none => (Bool.false, st)
  | some c =>
    if c = expected then (Bool.true, { st with current := st.current + 1 })
    else (Bool.false, st)

/-- `Scanner::add_token`: slice the lexeme `&source[start..current]` (byte
indices) and push the token with the current line. -/
def add_token (st : Scanner) (tokenType : TokenType) (literal : Literal) :
    Except Panic Scanner :=
  match byteSlice st.source st.start st.current with
  | none => Except.error Panic.sliceFault
  | some text =>
    Except.ok { st with
      tokens := st.tokens ++ [{ type := tokenType, source := text,
                                literal := literal, line := st.line }] }

/-- `Scanner::handle_string`. The Rust loop advances while the next character
is not `"`, incrementing `line` at each newline; its net effect is to consume
the maximal `"`-free prefix of the remaining input and add its newline count
to `line`. Then: panic if at end, else consume the closing quote, slice the
value strictly between the quotes, and add the token. -/
def handle_string (st : Scanner) : Except Panic Scanner :=
  let body := st.remaining.takeWhile (fun c => c ≠ '"')
  let st1 : Scanner :=
    { st with current := st.current + body.length, line := st.line + countNl body }
  if st1.isAtEnd then Except.error Panic.unterminatedString
  else
    let st2 : Scanner := { st1 with current := st1.current + 1 }
    match byteSlice st2.source (st2.start + 1) (st2.current - 1) with
    | none => Except.error Panic.sliceFault
    | some value => st2.add_token TokenType.string (Literal.string value)

/-- `Scanner::handle_number`. The Rust loop advances while the next character
is numeric; its net effect is to consume the maximal numeric prefix of the
remaining input. Then: `todo!` if the next character is `.`, else slice the
digit run and `unwrap()` its `f64` parse. -/
def handle_number (st : Scanner) : Except Panic Scanner :=
  let run := st.remaining.takeWhile (fun c => rustIsNumeric c)
  let st1 : Scanner := { st with current := st.current + run.length }
  if st1.peek = some '.' then Except.error Panic.todoDecimal
  else
    match byteSlice st1.source st1.start st1.current with
    | none => Except.error Panic.sliceFault
    | some str_literal =>
      if f64ParseOk str_literal then
        st1.add_token TokenType.number (Literal.float str_literal)
      else Except.error Panic.parseFault

/-- `Scanner::handle_identifier`. The Rust loop advances while the next
character is alphanumeric; its net effect is to consume the maximal
alphanumeric prefix of the remaining input. Then look the lexeme up in
`KEYWORDS`. -/
def handle_identifier (st : Scanner) : Except Panic Scanner :=
  let run := st.remaining.takeWhile (fun c => rustIsAlphanumeric c)
  let st1 : Scanner := { st with current := st.current + run.length }
  match byteSlice st1.source st1.start st1.current with
  | none => Except.error Panic.sliceFault
  | some text =>
    match KEYWORDS text with
    | some token_type => st1.add_token token_type Literal.empty
    | none => st1.add_token TokenType.identifier Literal.empty

/-- `Scanner::scan_token`: consume one character and dispatch on it. The Rust
`match` on distinct character literals is written as the equivalent chain of
equality tests. The final arm mirrors the source: numeric, then alphabetic,
then nothing at all (the `panic!("Unexpected character")` is commented out in
the source, so an unrecognized character is silently skipped). -/
def scan_token (st0 : Scanner) : Except Panic Scanner :=
  match st0.advance with
  | none => Except.error Panic.advanceNone
  | some (c, st) =>
    if c = '(' then st.add_token TokenType.leftParen Literal.empty
    else if c = ')' then st.add_token TokenType.rightParen Literal.empty
    else if c = '{' then st.add_token TokenType.leftBrace Literal.empty
    else if c = '}' then st.add_token TokenType.rightBrace Literal.empty
    else if c = ',' then st.add_token TokenType.comma Literal.empty
    else if c = '.' then st.add_token TokenType.dot Literal.empty
    else if c = '-' then st.add_token TokenType.minus Literal.empty
    else if c = '+' then st.add_token TokenType.plus Literal.empty
    else if c = ';' then st.add_token TokenType.semicolon Literal.empty
    else if c = '*' then st.add_token TokenType.star Literal.empty
    else if c = '!' then
      let p := st.«match» '='
      p.2.add_token (if p.1 then TokenType.bangEqual else TokenType.bang) Literal.empty
    else if c = '=' then
      let p := st.«match» '='
      p.2.add_token (if p.1 then TokenType.equalEqual else TokenType.equal) Literal.empty
    else if c = '<' then
      let p := st.«match» '='
      p.2.add_token (if p.1 then TokenType.lessEqual else TokenType.less) Literal.empty
    else if c = '>' then
      let p := st.«match» '='
      p.2.add_token (if p.1 then TokenType.greaterEqual else TokenType.greater) Literal.empty
    else if c = '/' then
      let p := st.«match» '/'
      if p.1 then
        let st := p.2
        Except.ok { st with
          current := st.current + (st.remaining.takeWhile (fun c => c ≠ '\n')).length }
      else p.2.add_token TokenType.slash Literal.empty
    else if c = ' ' then Except.ok st
    else if c = '\r' then Except.ok st
    else if c = '\t' then Except.ok st
    else if c = '\n' then Except.ok { st with line := st.line + 1 }
    else if c = '"' then st.handle_string
    else if rustIsNumeric c then st.handle_number
    else if rustIsAlphabetic c then st.handle_identifier
    else Except.ok st

end Scanner

/-- The `while !self.is_at_end()` loop of `Scanner::scan_tokens`. Each
iteration consumes at least one character (`scan_token_progress` below), so
the fuel `source.length - current` supplied by `scan_tokens` always suffices
and the zero-fuel branch is unreachable from it (`scanLoop_completes`
below). -/
def scanLoop : Nat → Scanner → Except Panic Scanner
  | 0, st => Except.ok st
  | fuel + 1, st =>
    if st.isAtEnd then Except.ok st
    else
      match Scanner.scan_token { st with start := st.current } with
      | Except.error e => Except.error e
      | Except.ok st2 => scanLoop fuel st2

/-- `Scanner::scan_tokens`: run the scan loop, then push the synthetic
end-of-input token with empty lexeme, no literal, and the current line. -/
def Scanner.scan_tokens (st : Scanner) : Except Panic (List Token) :=
  match scanLoop (st.source.length - st.current) st with
  | Except.error e => Except.error e
  | Except.ok st' =>
    Except.ok (st'.tokens ++ [{ type := TokenType.eof, source := [],
                                literal := Literal.empty, line := st'.line }])

/-- Scanning a whole source: `Scanner::new(source).scan_tokens()`, as done by
`run` in `main.rs`. -/
def scan_tokens (source : List Char) : Except Panic (List Token) :=
  (Scanner.new source).scan_tokens

/-- The end-of-input token at a given line. -/
def eofToken (line : Nat) : Token :=
  { type := TokenType.eof, source := [], literal := Literal.empty, line := line }

/-- A source made only of single-byte (ASCII) characters. -/
def AsciiSource (s : List Char) : Prop :=
  ∀ c ∈ s, c.toNat < 128

instance : DecidablePred AsciiSource := fun s => by
  unfold AsciiSource
  infer_instance

instance instDecEqExcept {ε α : Type} [DecidableEq ε] [DecidableEq α] :
    DecidableEq (Except ε α)
  | Except.error a, Except.error b =>
    if h : a = b then Decidable.isTrue (by rw [h])
    else Decidable.isFalse (by intro hh; injection hh; contradiction)
  | Except.error _, Except.ok _ => Decidable.isFalse (by intro h; exact Except.noConfusion h)
  | Except.ok _, Except.error _ => Decidable.isFalse (by intro h; exact Except.noConfusion h)
  | Except.ok a, Except.ok b =>
    if h : a = b then Decidable.isTrue (by rw [h])
    else Decidable.isFalse (by intro hh; injection hh; contradiction)

/-! List helper lemmas used by the scanner proofs. -/

theorem countNl_append (a b : List Char) : countNl (a ++ b) = countNl a + countNl b :=
  List.count_append _ a b

theorem countNl_take_add (s : List Char) (n k : Nat) :
    countNl (s.take (n + k)) = countNl (s.take n) + countNl ((s.drop n).take k) := by
  rw [List.take_add, countNl_append]

theorem countNl_take_le (s : List Char) (n m : Nat) (h : n ≤ m) :
    countNl (s.take n) ≤ countNl (s.take m) := by
  have : m = n + (m - n) := by omega
  rw [this, countNl_take_add]
  omega

theorem countNl_eq_zero (l : List Char) (h : '\n' ∉ l) : countNl l = 0 :=
  List.count_eq_zero.mpr h

theorem takeWhile_length_le (p : Char → Bool) (l : List Char) :
    (l.takeWhile p).length ≤ l.length := by
  induction l with
  | nil => simp [List.takeWhile]
  | cons c rest ih =>
    simp only [List.takeWhile]
    cases p c <;> simp
    omega

theorem takeWhile_take_eq (p : Char → Bool) (l : List Char) :
    l.take (l.takeWhile p).length = l.takeWhile p := by
  induction l with
  | nil => simp [List.takeWhile]
  | cons c rest ih =>
    simp only [List.takeWhile]
    cases p c <;> simp [ih]

theorem takeWhile_next (p : Char → Bool) (l : List Char) (d : Char)
    (h : l[(l.takeWhile p).length]? = some d) : p d = false := by
  induction l with
  | nil => simp at h
  | cons c rest ih =>
    simp only [List.takeWhile] at h
    cases hc : p c
    · simp only [hc] at h
      simp at h
      rw [← h]
      exact hc
    · simp only [hc] at h
      simp at h
      exact ih h

theorem takeWhile_append_all (p : Char → Bool) (xs : List Char) (q : Char)
    (rest : List Char) (hall : ∀ c ∈ xs, p c = true) (hq : p q = false) :
    (xs ++ q :: rest).takeWhile p = xs := by
  induction xs with
  | nil => simp [List.takeWhile, hq]
  | cons c tail ih =>
    have hc : p c = true := hall c (by simp)
    simp only [List.cons_append, List.takeWhile, hc, List.append_eq]
    rw [ih (fun d hd => hall d (by simp [hd]))]

theorem takeWhile_eq_self_of_all (p : Char → Bool) (l : List Char)
    (hall : ∀ c ∈ l, p c = true) : l.takeWhile p = l := by
  induction l with
  | nil => rfl
  | cons c tail ih =>
    have hc : p c = true := hall c (by simp)
    simp only [List.takeWhile, hc]
    rw [ih (fun d hd => hall d (by simp [hd]))]

theorem dropWhile_eq_nil_of_all (p : Char → Bool) (l : List Char)
    (hall : ∀ c ∈ l, p c = true) : l.dropWhile p = [] := by
  induction l with
  | nil => rfl
  | cons c tail ih =>
    have hc : p c = true := hall c (by simp)
    simp only [List.dropWhile, hc]
    exact ih (fun d hd => hall d (by simp [hd]))

theorem drop_eq_cons_of_getElem? (s : List Char) (n : Nat) (c : Char)
    (h : s[n]? = some c) : s.drop n = c :: s.drop (n + 1) := by
  have hn : n < s.length := by
    by_contra hge
    rw [List.getElem?_eq_none (by omega)] at h
    exact Option.noConfusion h
  have := List.drop_eq_getElem_cons hn
  rw [List.getElem?_eq_getElem hn] at h
  rw [this]
  simp at h
  rw [h]

/-! Lemmas about byte-indexed slicing on ASCII sources. -/

theorem utf8Len_ascii (c : Char) (h : c.toNat < 128) : utf8Len c = 1 := by
  unfold utf8Len
  rw [if_pos (by omega)]

theorem byteIdx_ascii (s : List Char) (hA : AsciiSource s) :
    ∀ n, n ≤ s.length → byteIdx s n = n := by
  induction s with
  | nil =>
    intro n hn
    simp at hn
    subst hn
    rfl
  | cons c rest ih =>
    intro n hn
    cases n with
    | zero => rfl
    | succ n' =>
      have hc : utf8Len c = 1 := utf8Len_ascii c (hA c (by simp))
      show utf8Len c + byteIdx rest n' = n' + 1
      rw [hc, ih (fun d hd => hA d (by simp [hd])) n' (by simp at hn; omega)]
      omega

theorem charBoundary_ascii (s : List Char) (hA : AsciiSource s) :
    ∀ b, b ≤ s.length → charBoundary s b = some b := by
  induction s with
  | nil =>
    intro b hb
    simp at hb
    subst hb
    rfl
  | cons c rest ih =>
    intro b hb
    cases b with
    | zero => rfl
    | succ b' =>
      have hc : utf8Len c = 1 := utf8Len_ascii c (hA c (by simp))
      simp only [charBoundary, hc]
      rw [if_pos (by omega)]
      have : b' + 1 - 1 = b' := by omega
      rw [this, ih (fun d hd => hA d (by simp [hd])) b' (by simp at hb; omega)]
      rfl

theorem byteSlice_ascii (s : List Char) (a b : Nat) (hA : AsciiSource s)
    (hab : a ≤ b) (hb : b ≤ s.length) :
    byteSlice s a b = some ((s.take b).drop a) := by
  unfold byteSlice
  rw [charBoundary_ascii s hA a (by omega), charBoundary_ascii s hA b hb]
  simp [hab]

theorem charBoundary_spec (s : List Char) :
    ∀ b j, charBoundary s b = some j → j ≤ s.length ∧ byteIdx s j = b := by
  induction s with
  | nil =>
    intro b j h
    cases b with
    | zero =>
      simp only [charBoundary] at h
      cases h
      exact ⟨by simp, rfl⟩
    | succ b' => exact Option.noConfusion h
  | cons c rest ih =>
    intro b j h
    cases b with
    | zero =>
      simp only [charBoundary] at h
      cases h
      exact ⟨by simp, rfl⟩
    | succ b' =>
      simp only [charBoundary] at h
      by_cases hle : utf8Len c ≤ b' + 1
      · rw [if_pos hle] at h
        cases hj : charBoundary rest (b' + 1 - utf8Len c) with
        | none => rw [hj] at h; exact Option.noConfusion h
        | some j' =>
          rw [hj] at h
          simp at h
          obtain ⟨hj'le, hj'idx⟩ := ih (b' + 1 - utf8Len c) j' hj
          cases h
          constructor
          · simp; omega
          · show utf8Len c + byteIdx rest j' = b' + 1
            omega
      · rw [if_neg hle] at h
        exact Option.noConfusion h

/-! Lemmas about the float-parse model on digit runs. -/

theorem digit_ne_char (c x : Char) (hc : isAsciiDigit c = true)
    (hx : isAsciiDigit x = false) : c ≠ x := by
  intro h
  subst h
  rw [hc] at hx
  exact Bool.noConfusion hx

theorem asciiLower_digit (c : Char) (h : isAsciiDigit c = true) : asciiLower c = c := by
  unfold isAsciiDigit at h
  simp only [Bool.and_eq_true, decide_eq_true_eq] at h
  unfold asciiLower
  rw [if_neg (by omega)]

theorem f64ParseOk_digits (d : Char) (rest : List Char)
    (hl : ∀ c ∈ d :: rest, isAsciiDigit c = true) :
    f64ParseOk (d :: rest) = true := by
  have hd := hl d (by simp)
  have hplus : d ≠ '+' := digit_ne_char d '+' hd (by decide)
  have hminus : d ≠ '-' := digit_ne_char d '-' hd (by decide)
  have hstrip : stripSign (d :: rest) = d :: rest := by
    simp [stripSign, hplus, hminus]
  have hEe : ∀ c ∈ d :: rest, (fun c => decide (c ≠ 'e' ∧ c ≠ 'E')) c = true := by
    intro c hc
    have h := hl c hc
    simp only [decide_eq_true_eq]
    exact ⟨digit_ne_char c 'e' h (by decide), digit_ne_char c 'E' h (by decide)⟩
  unfold f64ParseOk
  rw [hstrip]
  rw [if_neg ?hcond]
  case hcond =>
    have hld : asciiLower d = d := asciiLower_digit d hd
    intro hcon
    rcases hcon with h | h | h <;>
      (rw [List.map_cons, hld] at h
       injection h with h1 _
       subst h1
       exact absurd hd (by decide))
  have htw : (d :: rest).takeWhile (fun c => decide (c ≠ 'e' ∧ c ≠ 'E')) = d :: rest :=
    takeWhile_eq_self_of_all _ _ hEe
  have hdw : (d :: rest).dropWhile (fun c => decide (c ≠ 'e' ∧ c ≠ 'E')) = [] :=
    dropWhile_eq_nil_of_all _ _ hEe
  dsimp only
  rw [htw, hdw]
  unfold mantissaOk
  rw [takeWhile_eq_self_of_all _ _ hl, dropWhile_eq_nil_of_all _ _ hl]
  simp

theorem byteSlice_some_ascii (s : List Char) (a b : Nat) (l : List Char)
    (hA : AsciiSource s) (h : byteSlice s a b = some l) :
    a ≤ b ∧ b ≤ s.length ∧ l = (s.take b).drop a := by
  unfold byteSlice at h
  cases hca : charBoundary s a with
  | none => rw [hca] at h; exact Option.noConfusion h
  | some i =>
    cases hcb : charBoundary s b with
    | none => rw [hca, hcb] at h; exact Option.noConfusion h
    | some j =>
      rw [hca, hcb] at h
      obtain ⟨hile, hiidx⟩ := charBoundary_spec s a i hca
      obtain ⟨hjle, hjidx⟩ := charBoundary_spec s b j hcb
      have hai : a = i := by rw [← hiidx, byteIdx_ascii s hA i hile]
      have hbj : b = j := by rw [← hjidx, byteIdx_ascii s hA j hjle]
      subst hai hbj
      dsimp only at h
      by_cases hab : a ≤ b
      · rw [if_pos hab] at h
        cases h
        exact ⟨hab, hjle, rfl⟩
      · rw [if_neg hab] at h
        exact Option.noConfusion h

/-! Small facts about `peek`, consumed characters and newline counts. -/

theorem lt_of_peek (s : List Char) (cur : Nat) (c : Char) (hpk : s[cur]? = some c) :
    cur < s.length := by
  by_contra hge
  rw [List.getElem?_eq_none (by omega)] at hpk
  exact Option.noConfusion hpk

theorem countNl_cons (c : Char) (l : List Char) :
    countNl (c :: l) = countNl l + (if c = '\n' then 1 else 0) := by
  simp only [countNl, List.count_cons, beq_iff_eq]

theorem countNl_run (p : Char → Bool) (l : List Char)
    (hp : ∀ c, p c = true → c ≠ '\n') : countNl (l.takeWhile p) = 0 :=
  countNl_eq_zero _ (fun hmem => hp _ (List.mem_takeWhile_imp hmem) rfl)

theorem consumed_one (s : List Char) (cur : Nat) (c : Char) (hpk : s[cur]? = some c) :
    (s.drop cur).take 1 = [c] := by
  rw [drop_eq_cons_of_getElem? s cur c hpk]
  rfl

theorem consumed_cons (s : List Char) (cur k : Nat) (c : Char) (hpk : s[cur]? = some c) :
    (s.drop cur).take (k + 1) = c :: (s.drop (cur + 1)).take k := by
  rw [drop_eq_cons_of_getElem? s cur c hpk, List.take_succ_cons]

/-- The scanner's per-iteration postcondition: one `scan_token` call that
returned normally moved `current` forward, advanced `line` by exactly the
newlines among the consumed characters, and appended at most one non-Eof
token. The appended token's lexeme is the byte slice of the source that ends
exactly at the step's final position `st1.current` (the token's end), and its
line is the line after the step. -/
structure Step (st0 st1 : Scanner) : Prop where
  src : st1.source = st0.source
  cur_lt : st0.current < st1.current
  cur_le : st1.current ≤ st0.source.length
  line : st1.line =
    st0.line + countNl ((st0.source.drop st0.current).take (st1.current - st0.current))
  toks : st1.tokens = st0.tokens ∨
    ∃ tt text lit a, tt ≠ TokenType.eof ∧
      byteSlice st0.source a st1.current = some text ∧
      st1.tokens = st0.tokens ++
        [{ type := tt, source := text, literal := lit, line := st1.line }]

/-- The scan-loop invariant: the cursor is in bounds, the line counter is one
more than the newlines consumed so far, and the accumulated tokens contain no
Eof, have non-decreasing lines, and each carry the position `n` at which the
token ended: its lexeme is a byte slice of the source ending exactly at `n`,
and its line is the line counter at that emission point, one plus the
newlines among the first `n` consumed characters. -/
structure Inv (st : Scanner) : Prop where
  cur_le : st.current ≤ st.source.length
  line_eq : st.line = 1 + countNl (st.source.take st.current)
  no_eof : ∀ t ∈ st.tokens, t.type ≠ TokenType.eof
  line_mono : st.tokens.Pairwise (fun a b => a.line ≤ b.line)
  tok_emit : ∀ t ∈ st.tokens, ∃ n, n ≤ st.current ∧
    t.line = 1 + countNl (st.source.take n) ∧
    ∃ a, byteSlice st.source a n = some t.source

theorem Inv.init (source : List Char) : Inv (Scanner.new source) := by
  refine ⟨by simp [Scanner.new], by simp [Scanner.new, countNl], ?_, ?_, ?_⟩ <;>
    simp [Scanner.new]

theorem Inv.step (st0 st1 : Scanner) (h : Inv st0) (hs : Step st0 st1) : Inv st1 := by
  have hline1 : st1.line = 1 + countNl (st1.source.take st1.current) := by
    have hsplit : st1.current = st0.current + (st1.current - st0.current) := by
      have := hs.cur_lt
      omega
    rw [hs.line, h.line_eq, hs.src]
    conv_rhs => rw [hsplit]
    rw [countNl_take_add]
    omega
  have hmono0 : st0.line ≤ st1.line := by
    rw [hs.line]
    omega
  have hold_le : ∀ t ∈ st0.tokens, t.line ≤ st1.line := by
    intro t ht
    obtain ⟨n, hn, hl, _⟩ := h.tok_emit t ht
    rw [hl, hline1, hs.src]
    have : n ≤ st1.current := by
      have := hs.cur_lt
      omega
    have := countNl_take_le st0.source n st1.current this
    omega
  have hold_emit : ∀ t ∈ st0.tokens, ∃ n, n ≤ st1.current ∧
      t.line = 1 + countNl (st1.source.take n) ∧
      ∃ a, byteSlice st1.source a n = some t.source := by
    intro t ht
    obtain ⟨n, hn, hl, a, hab⟩ := h.tok_emit t ht
    refine ⟨n, by have := hs.cur_lt; omega, ?_, a, ?_⟩
    · rw [hs.src]
      exact hl
    · rw [hs.src]
      exact hab
  constructor
  · have := hs.cur_le
    rw [hs.src]
    exact this
  · exact hline1
  · rcases hs.toks with heq | ⟨tt, text, lit, a, htt, _, heq⟩
    · rw [heq]
      exact h.no_eof
    · rw [heq]
      intro t ht
      rcases List.mem_append.mp ht with hin | hin
      · exact h.no_eof t hin
      · simp at hin
        rw [hin]
        exact htt
  · rcases hs.toks with heq | ⟨tt, text, lit, a, htt, _, heq⟩
    · rw [heq]
      exact h.line_mono
    · rw [heq]
      rw [List.pairwise_append]
      refine ⟨h.line_mono, by simp, ?_⟩
      intro a ha b hb
      simp at hb
      rw [hb]
      exact hold_le a ha
  · rcases hs.toks with heq | ⟨tt, text, lit, a, htt, hslice, heq⟩
    · rw [heq]
      exact hold_emit
    · rw [heq]
      intro t ht
      rcases List.mem_append.mp ht with hin | hin
      · exact hold_emit t hin
      · simp at hin
        rw [hin]
        refine ⟨st1.current, le_refl _, hline1, a, ?_⟩
        rw [hs.src]
        exact hslice

/-! Specifications of the scanner's helper operations. -/

theorem lt_of_not_atEnd (st : Scanner) (h : st.isAtEnd = false) :
    st.current < st.source.length := by
  unfold Scanner.isAtEnd Scanner.peek at h
  cases hpk : st.source[st.current]? with
  | none => rw [hpk] at h; simp at h
  | some c => exact lt_of_peek _ _ _ hpk

theorem add_token_ok (st : Scanner) (tt : TokenType) (lit : Literal) (st' : Scanner)
    (h : st.add_token tt lit = Except.ok st') :
    ∃ text, byteSlice st.source st.start st.current = some text ∧
      st' = { st with tokens := st.tokens ++
        [{ type := tt, source := text, literal := lit, line := st.line }] } := by
  unfold Scanner.add_token at h
  cases hb : byteSlice st.source st.start st.current with
  | none => rw [hb] at h; exact Except.noConfusion h
  | some text =>
    rw [hb] at h
    injection h with h
    exact ⟨text, rfl, h.symm⟩

theorem match_cases (st : Scanner) (e : Char) (b : Bool) (stB : Scanner)
    (h : st.«match» e = (b, stB)) :
    (b = Bool.true ∧ st.peek = some e ∧ stB = { st with current := st.current + 1 }) ∨
    (b = Bool.false ∧ stB = st) := by
  unfold Scanner.«match» at h
  cases hpk : st.peek with
  | none =>
    rw [hpk] at h
    cases h
    right
    exact ⟨rfl, rfl⟩
  | some d =>
    rw [hpk] at h
    dsimp only at h
    by_cases hd : d = e
    · subst hd
      rw [if_pos rfl] at h
      cases h
      left
      exact ⟨rfl, rfl, rfl⟩
    · rw [if_neg hd] at h
      cases h
      right
      exact ⟨rfl, rfl⟩

/-! Per-branch `Step` lemmas for `scan_token`. -/

theorem step_via_add_token (st stMid st' : Scanner)
    (hsrc : stMid.source = st.source)
    (htoks : stMid.tokens = st.tokens)
    (hlt : st.current < stMid.current)
    (hle : stMid.current ≤ st.source.length)
    (hline : stMid.line = st.line +
      countNl ((st.source.drop st.current).take (stMid.current - st.current)))
    (tt : TokenType) (htt : tt ≠ TokenType.eof) (lit : Literal)
    (h : stMid.add_token tt lit = Except.ok st') : Step st st' := by
  obtain ⟨text, hb, hst'⟩ := add_token_ok stMid tt lit st' h
  subst hst'
  refine ⟨hsrc, hlt, hle, hline, Or.inr ⟨tt, text, lit, stMid.start, htt, ?_, ?_⟩⟩
  · rw [← hsrc]
    exact hb
  · rw [htoks]

theorem step_single_add (st0 : Scanner) (c : Char)
    (hpk : st0.source[st0.current]? = some c) (hc : c ≠ '\n')
    (tt : TokenType) (htt : tt ≠ TokenType.eof) (lit : Literal) (st' : Scanner)
    (h : Scanner.add_token { st0 with current := st0.current + 1 } tt lit =
      Except.ok st') : Step st0 st' := by
  have hlen := lt_of_peek _ _ _ hpk
  apply step_via_add_token st0 { st0 with current := st0.current + 1 } st' rfl rfl
    (by simp) (by simp; omega) ?_ tt htt lit h
  show st0.line = st0.line +
    countNl ((st0.source.drop st0.current).take (st0.current + 1 - st0.current))
  have h1 : st0.current + 1 - st0.current = 1 := by omega
  rw [h1, consumed_one _ _ _ hpk, countNl_cons]
  simp [countNl, hc]

theorem step_double_add (st0 : Scanner) (c d : Char)
    (hpk : st0.source[st0.current]? = some c)
    (hpk2 : st0.source[st0.current + 1]? = some d)
    (hc : c ≠ '\n') (hd : d ≠ '\n')
    (tt : TokenType) (htt : tt ≠ TokenType.eof) (lit : Literal) (st' : Scanner)
    (h : Scanner.add_token { st0 with current := st0.current + 1 + 1 } tt lit =
      Except.ok st') : Step st0 st' := by
  have hlen := lt_of_peek _ _ _ hpk2
  apply step_via_add_token st0 { st0 with current := st0.current + 1 + 1 } st' rfl rfl
    (by simp; omega) (by simp; omega) ?_ tt htt lit h
  show st0.line = st0.line +
    countNl ((st0.source.drop st0.current).take (st0.current + 1 + 1 - st0.current))
  have h2 : st0.current + 1 + 1 - st0.current = 1 + 1 := by omega
  rw [h2, consumed_cons _ _ _ _ hpk, consumed_one _ _ _ hpk2, countNl_cons, countNl_cons]
  simp [countNl, hc, hd]

theorem step_skip_one (st0 : Scanner) (c : Char)
    (hpk : st0.source[st0.current]? = some c) (hc : c ≠ '\n') :
    Step st0 { st0 with current := st0.current + 1 } := by
  have hlen := lt_of_peek _ _ _ hpk
  refine ⟨rfl, by simp, by simp; omega, ?_, Or.inl rfl⟩
  show st0.line = st0.line +
    countNl ((st0.source.drop st0.current).take (st0.current + 1 - st0.current))
  have h1 : st0.current + 1 - st0.current = 1 := by omega
  rw [h1, consumed_one _ _ _ hpk, countNl_cons]
  simp [countNl, hc]

theorem numeric_ne_nl (c : Char) (h : rustIsNumeric c = true) : c ≠ '\n' := by
  intro he
  subst he
  exact absurd h (by decide)

theorem alnum_ne_nl (c : Char) (h : rustIsAlphanumeric c = true) : c ≠ '\n' := by
  intro he
  subst he
  exact absurd h (by decide)

theorem KEYWORDS_ne_eof (s : List Char) (tt : TokenType) (h : KEYWORDS s = some tt) :
    tt ≠ TokenType.eof := by
  intro he
  subst he
  unfold KEYWORDS at h
  cases hf : KEYWORDS_TABLE.find? (fun kv => kv.1 == s) with
  | none =>
    rw [hf] at h
    exact Option.noConfusion h
  | some kv =>
    rw [hf] at h
    have hmem := List.mem_of_find?_eq_some hf
    have hall : ∀ p ∈ KEYWORDS_TABLE, p.2 ≠ TokenType.eof := by decide
    injection h with h2
    exact absurd h2 (hall kv hmem)

theorem step_newline (st0 : Scanner) (hpk : st0.source[st0.current]? = some '\n') :
    Step st0 { st0 with current := st0.current + 1, line := st0.line + 1 } := by
  have hlen := lt_of_peek _ _ _ hpk
  refine ⟨rfl, by simp, by simp; omega, ?_, Or.inl rfl⟩
  show st0.line + 1 = st0.line +
    countNl ((st0.source.drop st0.current).take (st0.current + 1 - st0.current))
  have h1 : st0.current + 1 - st0.current = 1 := by omega
  rw [h1, consumed_one _ _ _ hpk, countNl_cons]
  simp [countNl]

theorem handle_number_step (st0 : Scanner) (c : Char)
    (hpk : st0.source[st0.current]? = some c) (hc : c ≠ '\n') (st' : Scanner)
    (h : Scanner.handle_number { st0 with current := st0.current + 1 } = Except.ok st') :
    Step st0 st' := by
  have hlen := lt_of_peek _ _ _ hpk
  unfold Scanner.handle_number Scanner.remaining at h
  dsimp only at h
  set run := List.takeWhile (fun c => rustIsNumeric c) (List.drop (st0.current + 1) st0.source) with hrun
  have hrle : run.length ≤ (List.drop (st0.current + 1) st0.source).length :=
    takeWhile_length_le _ _
  rw [List.length_drop] at hrle
  set stMid : Scanner := { source := st0.source, tokens := st0.tokens, start := st0.start, current := st0.current + 1 + run.length, line := st0.line } with hstMid
  have hlt : st0.current < stMid.current := by rw [hstMid]; simp; omega
  have hle : stMid.current ≤ st0.source.length := by rw [hstMid]; simp; omega
  have hline : stMid.line = st0.line + countNl ((st0.source.drop st0.current).take (stMid.current - st0.current)) := by
    rw [hstMid]
    simp only
    have h1 : st0.current + 1 + run.length - st0.current = run.length + 1 := by omega
    rw [h1, consumed_cons _ _ _ _ hpk, countNl_cons, hrun, takeWhile_take_eq]
    rw [countNl_run _ _ (fun x hx => numeric_ne_nl x hx)]
    simp [hc]
  by_cases hdot : stMid.peek = some '.'
  · rw [if_pos hdot] at h
    exact Except.noConfusion h
  · rw [if_neg hdot] at h
    cases hb : byteSlice st0.source st0.start (st0.current + 1 + run.length) with
    | none =>
      rw [hb] at h
      exact Except.noConfusion h
    | some str_literal =>
      rw [hb] at h
      dsimp only at h
      by_cases hparse : f64ParseOk str_literal = true
      · rw [if_pos hparse] at h
        exact step_via_add_token st0 stMid st' rfl rfl hlt hle hline
          TokenType.number (by decide) (Literal.float str_literal) h
      · rw [if_neg hparse] at h
        exact Except.noConfusion h

theorem handle_identifier_step (st0 : Scanner) (c : Char)
    (hpk : st0.source[st0.current]? = some c) (hc : c ≠ '\n') (st' : Scanner)
    (h : Scanner.handle_identifier { st0 with current := st0.current + 1 } = Except.ok st') :
    Step st0 st' := by
  have hlen := lt_of_peek _ _ _ hpk
  unfold Scanner.handle_identifier Scanner.remaining at h
  dsimp only at h
  set run := List.takeWhile (fun c => rustIsAlphanumeric c) (List.drop (st0.current + 1) st0.source) with hrun
  have hrle : run.length ≤ (List.drop (st0.current + 1) st0.source).length :=
    takeWhile_length_le _ _
  rw [List.length_drop] at hrle
  set stMid : Scanner := { source := st0.source, tokens := st0.tokens, start := st0.start, current := st0.current + 1 + run.length, line := st0.line } with hstMid
  have hlt : st0.current < stMid.current := by rw [hstMid]; simp; omega
  have hle : stMid.current ≤ st0.source.length := by rw [hstMid]; simp; omega
  have hline : stMid.line = st0.line + countNl ((st0.source.drop st0.current).take (stMid.current - st0.current)) := by
    rw [hstMid]
    simp only
    have h1 : st0.current + 1 + run.length - st0.current = run.length + 1 := by omega
    rw [h1, consumed_cons _ _ _ _ hpk, countNl_cons, hrun, takeWhile_take_eq]
    rw [countNl_run _ _ (fun x hx => alnum_ne_nl x hx)]
    simp [hc]
  cases hb : byteSlice st0.source st0.start (st0.current + 1 + run.length) with
  | none =>
    rw [hb] at h
    exact Except.noConfusion h
  | some text =>
    rw [hb] at h
    dsimp only at h
    cases hk : KEYWORDS text with
    | none =>
      rw [hk] at h
      exact step_via_add_token st0 stMid st' rfl rfl hlt hle hline
        TokenType.identifier (by decide) Literal.empty h
    | some token_type =>
      rw [hk] at h
      exact step_via_add_token st0 stMid st' rfl rfl hlt hle hline
        token_type (KEYWORDS_ne_eof text token_type hk) Literal.empty h

theorem handle_string_step (st0 : Scanner) (c : Char)
    (hpk : st0.source[st0.current]? = some c) (hc : c ≠ '\n') (st' : Scanner)
    (h : Scanner.handle_string { st0 with current := st0.current + 1 } = Except.ok st') :
    Step st0 st' := by
  have hlen := lt_of_peek _ _ _ hpk
  unfold Scanner.handle_string Scanner.remaining at h
  dsimp only at h
  set body := List.takeWhile (fun c => decide (c ≠ '"')) (List.drop (st0.current + 1) st0.source) with hbody
  set st1 : Scanner := { source := st0.source, tokens := st0.tokens, start := st0.start, current := st0.current + 1 + body.length, line := st0.line + countNl body } with hst1
  by_cases hend : st1.isAtEnd = true
  · rw [if_pos hend] at h
    exact Except.noConfusion h
  · rw [if_neg hend] at h
    have hlen2 : st0.current + 1 + body.length < st0.source.length := by
      have := lt_of_not_atEnd st1 ((Bool.not_eq_true _) ▸ hend)
      rw [hst1] at this
      simpa using this
    have hnext : (List.drop (st0.current + 1) st0.source)[body.length]? =
        some (st0.source[st0.current + 1 + body.length]) := by
      rw [List.getElem?_drop]
      exact List.getElem?_eq_getElem hlen2
    have hquote : st0.source[st0.current + 1 + body.length] = '"' := by
      have hp := takeWhile_next (fun c => decide (c ≠ '"'))
        (List.drop (st0.current + 1) st0.source) _ hnext
      simp at hp
      exact hp
    have htake : (List.drop (st0.current + 1) st0.source).take (body.length + 1) =
        body ++ ['"'] := by
      rw [List.take_succ, hnext, hquote, hbody, takeWhile_take_eq]
      rfl
    set stMid : Scanner := { source := st0.source, tokens := st0.tokens, start := st0.start, current := st0.current + 1 + body.length + 1, line := st0.line + countNl body } with hstMid
    have hlt : st0.current < stMid.current := by rw [hstMid]; simp; omega
    have hle : stMid.current ≤ st0.source.length := by rw [hstMid]; simp; omega
    have hline : stMid.line = st0.line + countNl ((st0.source.drop st0.current).take (stMid.current - st0.current)) := by
      rw [hstMid]
      simp only
      have h1 : st0.current + 1 + body.length + 1 - st0.current = body.length + 1 + 1 := by omega
      rw [h1, consumed_cons _ _ _ _ hpk, countNl_cons, htake, countNl_append]
      simp [countNl, hc]
    cases hv : byteSlice st0.source (st0.start + 1) (st0.current + 1 + body.length + 1 - 1) with
    | none =>
      rw [hv] at h
      exact Except.noConfusion h
    | some value =>
      rw [hv] at h
      dsimp only at h
      exact step_via_add_token st0 stMid st' rfl rfl hlt hle hline
        TokenType.string (by decide) (Literal.string value) h

theorem alpha_ne_nl (c : Char) (h : rustIsAlphabetic c = true) : c ≠ '\n' := by
  intro he
  subst he
  exact absurd h (by decide)

/-- One normally-returning `scan_token` call is a `Step`: it consumes at
least one character, tracks newlines in `line`, and appends at most one
non-Eof token. -/
theorem scan_token_step (st0 st' : Scanner) (h : st0.scan_token = Except.ok st') :
    Step st0 st' := by
  unfold Scanner.scan_token Scanner.advance Scanner.remaining at h
  cases hpk : st0.peek with
  | none =>
    rw [hpk] at h
    exact Except.noConfusion h
  | some c =>
    rw [hpk] at h
    dsimp only at h
    have hpk2 : st0.source[st0.current]? = some c := hpk
    by_cases h1 : c = '('
    · rw [if_pos h1] at h
      subst h1
      exact step_single_add st0 '(' hpk2 (by decide) TokenType.leftParen (by decide) Literal.empty st' h
    rw [if_neg h1] at h
    by_cases h2 : c = ')'
    · rw [if_pos h2] at h
      subst h2
      exact step_single_add st0 ')' hpk2 (by decide) TokenType.rightParen (by decide) Literal.empty st' h
    rw [if_neg h2] at h
    by_cases h3 : c = '{'
    · rw [if_pos h3] at h
      subst h3
      exact step_single_add st0 '{' hpk2 (by decide) TokenType.leftBrace (by decide) Literal.empty st' h
    rw [if_neg h3] at h
    by_cases h4 : c = '}'
    · rw [if_pos h4] at h
      subst h4
      exact step_single_add st0 '}' hpk2 (by decide) TokenType.rightBrace (by decide) Literal.empty st' h
    rw [if_neg h4] at h
    by_cases h5 : c = ','
    · rw [if_pos h5] at h
      subst h5
      exact step_single_add st0 ',' hpk2 (by decide) TokenType.comma (by decide) Literal.empty st' h
    rw [if_neg h5] at h
    by_cases h6 : c = '.'
    · rw [if_pos h6] at h
      subst h6
      exact step_single_add st0 '.' hpk2 (by decide) TokenType.dot (by decide) Literal.empty st' h
    rw [if_neg h6] at h
    by_cases h7 : c = '-'
    · rw [if_pos h7] at h
      subst h7
      exact step_single_add st0 '-' hpk2 (by decide) TokenType.minus (by decide) Literal.empty st' h
    rw [if_neg h7] at h
    by_cases h8 : c = '+'
    · rw [if_pos h8] at h
      subst h8
      exact step_single_add st0 '+' hpk2 (by decide) TokenType.plus (by decide) Literal.empty st' h
    rw [if_neg h8] at h
    by_cases h9 : c = ';'
    · rw [if_pos h9] at h
      subst h9
      exact step_single_add st0 ';' hpk2 (by decide) TokenType.semicolon (by decide) Literal.empty st' h
    rw [if_neg h9] at h
    by_cases h10 : c = '*'
    · rw [if_pos h10] at h
      subst h10
      exact step_single_add st0 '*' hpk2 (by decide) TokenType.star (by decide) Literal.empty st' h
    rw [if_neg h10] at h
    by_cases h11 : c = '!'
    · rw [if_pos h11] at h
      subst h11
      cases hm : Scanner.«match» { st0 with current := st0.current + 1 } '=' with
      | mk b stB =>
        rw [hm] at h
        dsimp only at h
        rcases match_cases _ '=' b stB hm with ⟨hb, hq, hstB⟩ | ⟨hb, hstB⟩
        · subst hb
          subst hstB
          rw [if_pos rfl] at h
          exact step_double_add st0 '!' '=' hpk2 hq (by decide) (by decide) TokenType.bangEqual (by decide) Literal.empty st' h
        · subst hb
          subst hstB
          rw [if_neg (by simp)] at h
          exact step_single_add st0 '!' hpk2 (by decide) TokenType.bang (by decide) Literal.empty st' h
    rw [if_neg h11] at h
    by_cases h12 : c = '='
    · rw [if_pos h12] at h
      subst h12
      cases hm : Scanner.«match» { st0 with current := st0.current + 1 } '=' with
      | mk b stB =>
        rw [hm] at h
        dsimp only at h
        rcases match_cases _ '=' b stB hm with ⟨hb, hq, hstB⟩ | ⟨hb, hstB⟩
        · subst hb
          subst hstB
          rw [if_pos rfl] at h
          exact step_double_add st0 '=' '=' hpk2 hq (by decide) (by decide) TokenType.equalEqual (by decide) Literal.empty st' h
        · subst hb
          subst hstB
          rw [if_neg (by simp)] at h
          exact step_single_add st0 '=' hpk2 (by decide) TokenType.equal (by decide) Literal.empty st' h
    rw [if_neg h12] at h
    by_cases h13 : c = '<'
    · rw [if_pos h13] at h
      subst h13
      cases hm : Scanner.«match» { st0 with current := st0.current + 1 } '=' with
      | mk b stB =>
        rw [hm] at h
        dsimp only at h
        rcases match_cases _ '=' b stB hm with ⟨hb, hq, hstB⟩ | ⟨hb, hstB⟩
        · subst hb
          subst hstB
          rw [if_pos rfl] at h
          exact step_double_add st0 '<' '=' hpk2 hq (by decide) (by decide) TokenType.lessEqual (by decide) Literal.empty st' h
        · subst hb
          subst hstB
          rw [if_neg (by simp)] at h
          exact step_single_add st0 '<' hpk2 (by decide) TokenType.less (by decide) Literal.empty st' h
    rw [if_neg h13] at h
    by_cases h14 : c = '>'
    · rw [if_pos h14] at h
      subst h14
      cases hm : Scanner.«match» { st0 with current := st0.current + 1 } '=' with
      | mk b stB =>
        rw [hm] at h
        dsimp only at h
        rcases match_cases _ '=' b stB hm with ⟨hb, hq, hstB⟩ | ⟨hb, hstB⟩
        · subst hb
          subst hstB
          rw [if_pos rfl] at h
          exact step_double_add st0 '>' '=' hpk2 hq (by decide) (by decide) TokenType.greaterEqual (by decide) Literal.empty st' h
        · subst hb
          subst hstB
          rw [if_neg (by simp)] at h
          exact step_single_add st0 '>' hpk2 (by decide) TokenType.greater (by decide) Literal.empty st' h
    rw [if_neg h14] at h
    by_cases h15 : c = '/'
    · rw [if_pos h15] at h
      subst h15
      cases hm : Scanner.«match» { st0 with current := st0.current + 1 } '/' with
      | mk b stB =>
        rw [hm] at h
        dsimp only at h
        rcases match_cases _ '/' b stB hm with ⟨hb, hq, hstB⟩ | ⟨hb, hstB⟩
        · subst hb
          subst hstB
          rw [if_pos rfl] at h
          injection h with h
          subst h
          have hlen2 := lt_of_peek _ _ _ hq
          simp only at hlen2
          set run := List.takeWhile (fun c => decide (c ≠ '\n')) (List.drop (st0.current + 1 + 1) st0.source) with hrun
          have hrle : run.length ≤ (List.drop (st0.current + 1 + 1) st0.source).length :=
            takeWhile_length_le _ _
          rw [List.length_drop] at hrle
          refine ⟨rfl, by simp; omega, by simp; omega, ?_, Or.inl rfl⟩
          show st0.line = st0.line + countNl ((st0.source.drop st0.current).take (st0.current + 1 + 1 + run.length - st0.current))
          have he1 : st0.current + 1 + 1 + run.length - st0.current = run.length + 1 + 1 := by omega
          rw [he1]
          rw [consumed_cons _ _ _ _ hpk2, consumed_cons _ _ _ _ hq, countNl_cons, countNl_cons]
          rw [hrun, takeWhile_take_eq]
          rw [countNl_run _ _ (fun x hx => of_decide_eq_true hx)]
          simp
        · subst hb
          subst hstB
          rw [if_neg (by simp)] at h
          exact step_single_add st0 '/' hpk2 (by decide) TokenType.slash (by decide) Literal.empty st' h
    rw [if_neg h15] at h
    by_cases h16 : c = ' '
    · rw [if_pos h16] at h
      subst h16
      injection h with h
      subst h
      exact step_skip_one st0 ' ' hpk2 (by decide)
    rw [if_neg h16] at h
    by_cases h17 : c = '\r'
    · rw [if_pos h17] at h
      subst h17
      injection h with h
      subst h
      exact step_skip_one st0 '\r' hpk2 (by decide)
    rw [if_neg h17] at h
    by_cases h18 : c = '\t'
    · rw [if_pos h18] at h
      subst h18
      injection h with h
      subst h
      exact step_skip_one st0 '\t' hpk2 (by decide)
    rw [if_neg h18] at h
    by_cases h19 : c = '\n'
    · rw [if_pos h19] at h
      subst h19
      injection h with h
      subst h
      exact step_newline st0 hpk2
    rw [if_neg h19] at h
    by_cases h20 : c = '"'
    · rw [if_pos h20] at h
      subst h20
      exact handle_string_step st0 '"' hpk2 (by decide) st' h
    rw [if_neg h20] at h
    by_cases h21 : rustIsNumeric c = true
    · rw [if_pos h21] at h
      exact handle_number_step st0 c hpk2 (numeric_ne_nl c h21) st' h
    rw [if_neg h21] at h
    by_cases h22 : rustIsAlphabetic c = true
    · rw [if_pos h22] at h
      exact handle_identifier_step st0 c hpk2 (alpha_ne_nl c h22) st' h
    rw [if_neg h22] at h
    injection h with h
    subst h
    exact step_skip_one st0 c hpk2 h19

/-! The scan loop: invariant preservation and completion. -/

theorem scanLoop_inv (fuel : Nat) (st st' : Scanner) (hI : Inv st)
    (h : scanLoop fuel st = Except.ok st') :
    Inv st' ∧ st'.source = st.source ∧ st.current ≤ st'.current ∧
      (st.source.length ≤ st.current + fuel → st'.current = st'.source.length) := by
  induction fuel generalizing st with
  | zero =>
    unfold scanLoop at h
    injection h with h
    subst h
    exact ⟨hI, rfl, le_refl _, fun hf => le_antisymm hI.cur_le (by omega)⟩
  | succ fuel ih =>
    unfold scanLoop at h
    by_cases hend : st.isAtEnd = true
    · rw [if_pos hend] at h
      injection h with h
      subst h
      have hgt : st.source.length ≤ st.current := by
        unfold Scanner.isAtEnd Scanner.peek at hend
        cases hp : st.source[st.current]? with
        | none =>
          by_contra hlt
          rw [List.getElem?_eq_getElem (by omega)] at hp
          exact Option.noConfusion hp
        | some c =>
          rw [hp] at hend
          simp at hend
      exact ⟨hI, rfl, le_refl _, fun _ => le_antisymm hI.cur_le hgt⟩
    · rw [if_neg hend] at h
      cases hs : Scanner.scan_token { st with start := st.current } with
      | error e =>
        rw [hs] at h
        exact Except.noConfusion h
      | ok st2 =>
        rw [hs] at h
        have hstep0 := scan_token_step _ _ hs
        have hstep : Step st st2 := ⟨hstep0.src, hstep0.cur_lt, hstep0.cur_le, hstep0.line, hstep0.toks⟩
        have hI2 : Inv st2 := Inv.step st st2 hI hstep
        obtain ⟨hI', hsrc, hcur, hcomp⟩ := ih st2 hI2 h
        refine ⟨hI', by rw [hsrc, hstep.src], le_trans (le_of_lt hstep.cur_lt) hcur, ?_⟩
        intro hf
        apply hcomp
        have h1 := hstep.cur_lt
        have h2 : st2.source = st.source := hstep.src
        rw [h2]
        omega

/-- The final state of a completed scan: it satisfies the invariant, has the
original source, stands at the end of the input, and the returned token list
is its accumulated tokens followed by the Eof token at its final line. -/
theorem scan_tokens_spec (src : List Char) (ts : List Token)
    (h : scan_tokens src = Except.ok ts) :
    ∃ stf : Scanner, Inv stf ∧ stf.source = src ∧ stf.current = src.length ∧
      ts = stf.tokens ++ [eofToken stf.line] := by
  unfold scan_tokens Scanner.scan_tokens Scanner.new at h
  dsimp only at h
  cases hl : scanLoop (src.length - 0)
      { source := src, tokens := [], start := 0, current := 0, line := 1 } with
  | error e =>
    rw [hl] at h
    exact Except.noConfusion h
  | ok stf =>
    rw [hl] at h
    injection h with h
    obtain ⟨hI, hsrc, _, hcomp⟩ := scanLoop_inv _ _ _ (Inv.init src) hl
    have hsrc' : stf.source = src := by simpa [Scanner.new] using hsrc
    refine ⟨stf, hI, hsrc', ?_, ?_⟩
    · rw [hcomp (by simp [Scanner.new]), hsrc']
    · rw [← h]
      rfl

/-! Error classification on ASCII sources: the only panics reachable by the
scan loop are the unterminated-string panic and the decimal-point todo. -/

theorem add_token_of_slice (st : Scanner) (tt : TokenType) (lit : Literal)
    (text : List Char) (hb : byteSlice st.source st.start st.current = some text) :
    st.add_token tt lit = Except.ok { st with tokens := st.tokens ++
      [{ type := tt, source := text, literal := lit, line := st.line }] } := by
  unfold Scanner.add_token
  rw [hb]

theorem digit_of_ascii_numeric (c : Char) (h1 : c.toNat < 128)
    (h2 : rustIsNumeric c = true) : isAsciiDigit c = true := by
  unfold rustIsNumeric at h2
  unfold isAsciiDigit
  simp only [Bool.or_eq_true, Bool.and_eq_true, decide_eq_true_eq, beq_iff_eq] at h2 ⊢
  omega

theorem mem_of_mem_takeWhile (p : Char → Bool) (l : List Char) (x : Char)
    (h : x ∈ l.takeWhile p) : x ∈ l := by
  rw [← takeWhile_take_eq p l] at h
  exact List.take_subset _ _ h

theorem handle_string_error (st0 : Scanner) (hA : AsciiSource st0.source)
    (hstart : st0.start = st0.current) (_hcur : st0.current < st0.source.length)
    (e : Panic)
    (h : Scanner.handle_string { st0 with current := st0.current + 1 } = Except.error e) :
    e = Panic.unterminatedString := by
  unfold Scanner.handle_string Scanner.remaining at h
  dsimp only at h
  set body := List.takeWhile (fun c => decide (c ≠ '"')) (List.drop (st0.current + 1) st0.source) with hbody
  set st1 : Scanner := { source := st0.source, tokens := st0.tokens, start := st0.start, current := st0.current + 1 + body.length, line := st0.line + countNl body } with hst1
  by_cases hend : st1.isAtEnd = true
  · rw [if_pos hend] at h
    injection h with h
    exact h.symm
  · rw [if_neg hend] at h
    have hlen2 : st0.current + 1 + body.length < st0.source.length := by
      have := lt_of_not_atEnd st1 ((Bool.not_eq_true _) ▸ hend)
      rw [hst1] at this
      simpa using this
    have hv := byteSlice_ascii st0.source (st0.start + 1) (st0.current + 1 + body.length + 1 - 1)
      hA (by omega) (by omega)
    rw [hv] at h
    dsimp only at h
    have ht := byteSlice_ascii st0.source st0.start (st0.current + 1 + body.length + 1)
      hA (by omega) (by omega)
    have := add_token_of_slice
      { source := st0.source, tokens := st0.tokens, start := st0.start, current := st0.current + 1 + body.length + 1, line := st0.line + countNl body }
      TokenType.string
      (Literal.string ((st0.source.take (st0.current + 1 + body.length + 1 - 1)).drop (st0.start + 1)))
      _ ht
    rw [this] at h
    exact Except.noConfusion h

theorem handle_number_error (st0 : Scanner) (c : Char) (hA : AsciiSource st0.source)
    (hstart : st0.start = st0.current)
    (hpk : st0.source[st0.current]? = some c) (hnum : rustIsNumeric c = true)
    (e : Panic)
    (h : Scanner.handle_number { st0 with current := st0.current + 1 } = Except.error e) :
    e = Panic.todoDecimal := by
  have hcur := lt_of_peek _ _ _ hpk
  unfold Scanner.handle_number Scanner.remaining at h
  dsimp only at h
  set run := List.takeWhile (fun c => rustIsNumeric c) (List.drop (st0.current + 1) st0.source) with hrun
  have hrle : run.length ≤ (List.drop (st0.current + 1) st0.source).length :=
    takeWhile_length_le _ _
  rw [List.length_drop] at hrle
  by_cases hdot : ({ source := st0.source, tokens := st0.tokens, start := st0.start, current := st0.current + 1 + run.length, line := st0.line } : Scanner).peek = some '.'
  · rw [if_pos hdot] at h
    injection h with h
    exact h.symm
  · rw [if_neg hdot] at h
    have hb := byteSlice_ascii st0.source st0.start (st0.current + 1 + run.length)
      hA (by omega) (by omega)
    rw [hb] at h
    dsimp only at h
    have hsl : (st0.source.take (st0.current + 1 + run.length)).drop st0.start =
        c :: run := by
      rw [List.drop_take, hstart]
      have h1 : st0.current + 1 + run.length - st0.current = run.length + 1 := by omega
      rw [h1, consumed_cons _ _ _ _ hpk, hrun, takeWhile_take_eq]
    have hdigits : ∀ x ∈ c :: run, isAsciiDigit x = true := by
      intro x hx
      rcases List.mem_cons.mp hx with hx | hx
      · subst hx
        apply digit_of_ascii_numeric x _ hnum
        apply hA
        have := List.getElem?_eq_some.mp hpk
        obtain ⟨hlt2, hget⟩ := this
        rw [← hget]
        apply List.getElem_mem
      · have hnum2 : rustIsNumeric x = true := List.mem_takeWhile_imp (hrun ▸ hx)
        apply digit_of_ascii_numeric x _ hnum2
        apply hA
        have hmem : x ∈ List.drop (st0.current + 1) st0.source :=
          mem_of_mem_takeWhile _ _ _ (hrun ▸ hx)
        exact List.drop_subset _ _ hmem
    have hparse : f64ParseOk ((st0.source.take (st0.current + 1 + run.length)).drop st0.start) = true := by
      rw [hsl]
      exact f64ParseOk_digits c run hdigits
    rw [if_pos hparse] at h
    have := add_token_of_slice
      { source := st0.source, tokens := st0.tokens, start := st0.start, current := st0.current + 1 + run.length, line := st0.line }
      TokenType.number
      (Literal.float ((st0.source.take (st0.current + 1 + run.length)).drop st0.start))
      _ hb
    rw [this] at h
    exact Except.noConfusion h

theorem handle_identifier_error (st0 : Scanner) (hA : AsciiSource st0.source)
    (hstart : st0.start = st0.current) (hcur : st0.current < st0.source.length)
    (e : Panic)
    (h : Scanner.handle_identifier { st0 with current := st0.current + 1 } = Except.error e) :
    False := by
  unfold Scanner.handle_identifier Scanner.remaining at h
  dsimp only at h
  set run := List.takeWhile (fun c => rustIsAlphanumeric c) (List.drop (st0.current + 1) st0.source) with hrun
  have hrle : run.length ≤ (List.drop (st0.current + 1) st0.source).length :=
    takeWhile_length_le _ _
  rw [List.length_drop] at hrle
  have hb := byteSlice_ascii st0.source st0.start (st0.current + 1 + run.length)
    hA (by omega) (by omega)
  rw [hb] at h
  dsimp only at h
  cases hk : KEYWORDS ((st0.source.take (st0.current + 1 + run.length)).drop st0.start) with
  | none =>
    rw [hk] at h
    dsimp only at h
    have := add_token_of_slice
      { source := st0.source, tokens := st0.tokens, start := st0.start, current := st0.current + 1 + run.length, line := st0.line }
      TokenType.identifier Literal.empty _ hb
    rw [this] at h
    exact Except.noConfusion h
  | some token_type =>
    rw [hk] at h
    dsimp only at h
    have := add_token_of_slice
      { source := st0.source, tokens := st0.tokens, start := st0.start, current := st0.current + 1 + run.length, line := st0.line }
      token_type Literal.empty _ hb
    rw [this] at h
    exact Except.noConfusion h

theorem add_token_ascii_no_error (st0 : Scanner) (k : Nat) (hA : AsciiSource st0.source)
    (hstart : st0.start = st0.current) (hk : 1 ≤ k)
    (hle : st0.current + k ≤ st0.source.length) (tt : TokenType) (lit : Literal)
    (e : Panic)
    (h : Scanner.add_token { st0 with current := st0.current + k } tt lit = Except.error e) :
    False := by
  have hb := byteSlice_ascii st0.source st0.start (st0.current + k) hA (by omega) (by omega)
  have hok := add_token_of_slice { st0 with current := st0.current + k } tt lit _ hb
  rw [hok] at h
  exact Except.noConfusion h

/-- On an ASCII source, a `scan_token` call from a position strictly inside
the input either returns normally or panics with the unterminated-string
panic or the decimal-point todo: every string-slice is in bounds and on
character boundaries, and the numeric parse never fails. -/
theorem scan_token_ascii_errors (st0 : Scanner) (hA : AsciiSource st0.source)
    (hstart : st0.start = st0.current) (hlt : st0.current < st0.source.length)
    (e : Panic) (h : st0.scan_token = Except.error e) :
    e = Panic.unterminatedString ∨ e = Panic.todoDecimal := by
  unfold Scanner.scan_token Scanner.advance Scanner.remaining at h
  cases hpk : st0.peek with
  | none =>
    unfold Scanner.peek at hpk
    rw [List.getElem?_eq_getElem hlt] at hpk
    exact Option.noConfusion hpk
  | some c =>
    rw [hpk] at h
    dsimp only at h
    have hpk2 : st0.source[st0.current]? = some c := hpk
    by_cases h1 : c = '('
    · rw [if_pos h1] at h
      exact (add_token_ascii_no_error st0 1 hA hstart (by omega) (by omega) _ _ e h).elim
    rw [if_neg h1] at h
    by_cases h2 : c = ')'
    · rw [if_pos h2] at h
      exact (add_token_ascii_no_error st0 1 hA hstart (by omega) (by omega) _ _ e h).elim
    rw [if_neg h2] at h
    by_cases h3 : c = '{'
    · rw [if_pos h3] at h
      exact (add_token_ascii_no_error st0 1 hA hstart (by omega) (by omega) _ _ e h).elim
    rw [if_neg h3] at h
    by_cases h4 : c = '}'
    · rw [if_pos h4] at h
      exact (add_token_ascii_no_error st0 1 hA hstart (by omega) (by omega) _ _ e h).elim
    rw [if_neg h4] at h
    by_cases h5 : c = ','
    · rw [if_pos h5] at h
      exact (add_token_ascii_no_error st0 1 hA hstart (by omega) (by omega) _ _ e h).elim
    rw [if_neg h5] at h
    by_cases h6 : c = '.'
    · rw [if_pos h6] at h
      exact (add_token_ascii_no_error st0 1 hA hstart (by omega) (by omega) _ _ e h).elim
    rw [if_neg h6] at h
    by_cases h7 : c = '-'
    · rw [if_pos h7] at h
      exact (add_token_ascii_no_error st0 1 hA hstart (by omega) (by omega) _ _ e h).elim
    rw [if_neg h7] at h
    by_cases h8 : c = '+'
    · rw [if_pos h8] at h
      exact (add_token_ascii_no_error st0 1 hA hstart (by omega) (by omega) _ _ e h).elim
    rw [if_neg h8] at h
    by_cases h9 : c = ';'
    · rw [if_pos h9] at h
      exact (add_token_ascii_no_error st0 1 hA hstart (by omega) (by omega) _ _ e h).elim
    rw [if_neg h9] at h
    by_cases h10 : c = '*'
    · rw [if_pos h10] at h
      exact (add_token_ascii_no_error st0 1 hA hstart (by omega) (by omega) _ _ e h).elim
    rw [if_neg h10] at h
    by_cases h11 : c = '!'
    · rw [if_pos h11] at h
      cases hm : Scanner.«match» { st0 with current := st0.current + 1 } '=' with
      | mk b stB =>
        rw [hm] at h
        dsimp only at h
        rcases match_cases _ '=' b stB hm with ⟨hb, hq, hstB⟩ | ⟨hb, hstB⟩
        · subst hb
          subst hstB
          rw [if_pos rfl] at h
          have hlen2 : st0.current + 1 < st0.source.length :=
            lt_of_peek st0.source (st0.current + 1) '=' hq
          exact (add_token_ascii_no_error st0 (1 + 1) hA hstart (by omega) (by omega) _ _ e h).elim
        · subst hb
          subst hstB
          rw [if_neg (by simp)] at h
          exact (add_token_ascii_no_error st0 1 hA hstart (by omega) (by omega) _ _ e h).elim
    rw [if_neg h11] at h
    by_cases h12 : c = '='
    · rw [if_pos h12] at h
      cases hm : Scanner.«match» { st0 with current := st0.current + 1 } '=' with
      | mk b stB =>
        rw [hm] at h
        dsimp only at h
        rcases match_cases _ '=' b stB hm with ⟨hb, hq, hstB⟩ | ⟨hb, hstB⟩
        · subst hb
          subst hstB
          rw [if_pos rfl] at h
          have hlen2 : st0.current + 1 < st0.source.length :=
            lt_of_peek st0.source (st0.current + 1) '=' hq
          exact (add_token_ascii_no_error st0 (1 + 1) hA hstart (by omega) (by omega) _ _ e h).elim
        · subst hb
          subst hstB
          rw [if_neg (by simp)] at h
          exact (add_token_ascii_no_error st0 1 hA hstart (by omega) (by omega) _ _ e h).elim
    rw [if_neg h12] at h
    by_cases h13 : c = '<'
    · rw [if_pos h13] at h
      cases hm : Scanner.«match» { st0 with current := st0.current + 1 } '=' with
      | mk b stB =>
        rw [hm] at h
        dsimp only at h
        rcases match_cases _ '=' b stB hm with ⟨hb, hq, hstB⟩ | ⟨hb, hstB⟩
        · subst hb
          subst hstB
          rw [if_pos rfl] at h
          have hlen2 : st0.current + 1 < st0.source.length :=
            lt_of_peek st0.source (st0.current + 1) '=' hq
          exact (add_token_ascii_no_error st0 (1 + 1) hA hstart (by omega) (by omega) _ _ e h).elim
        · subst hb
          subst hstB
          rw [if_neg (by simp)] at h
          exact (add_token_ascii_no_error st0 1 hA hstart (by omega) (by omega) _ _ e h).elim
    rw [if_neg h13] at h
    by_cases h14 : c = '>'
    · rw [if_pos h14] at h
      cases hm : Scanner.«match» { st0 with current := st0.current + 1 } '=' with
      | mk b stB =>
        rw [hm] at h
        dsimp only at h
        rcases match_cases _ '=' b stB hm with ⟨hb, hq, hstB⟩ | ⟨hb, hstB⟩
        · subst hb
          subst hstB
          rw [if_pos rfl] at h
          have hlen2 : st0.current + 1 < st0.source.length :=
            lt_of_peek st0.source (st0.current + 1) '=' hq
          exact (add_token_ascii_no_error st0 (1 + 1) hA hstart (by omega) (by omega) _ _ e h).elim
        · subst hb
          subst hstB
          rw [if_neg (by simp)] at h
          exact (add_token_ascii_no_error st0 1 hA hstart (by omega) (by omega) _ _ e h).elim
    rw [if_neg h14] at h
    by_cases h15 : c = '/'
    · rw [if_pos h15] at h
      cases hm : Scanner.«match» { st0 with current := st0.current + 1 } '/' with
      | mk b stB =>
        rw [hm] at h
        dsimp only at h
        rcases match_cases _ '/' b stB hm with ⟨hb, hq, hstB⟩ | ⟨hb, hstB⟩
        · subst hb
          subst hstB
          rw [if_pos rfl] at h
          exact Except.noConfusion h
        · subst hb
          subst hstB
          rw [if_neg (by simp)] at h
          exact (add_token_ascii_no_error st0 1 hA hstart (by omega) (by omega) _ _ e h).elim
    rw [if_neg h15] at h
    by_cases h16 : c = ' '
    · rw [if_pos h16] at h
      exact Except.noConfusion h
    rw [if_neg h16] at h
    by_cases h17 : c = '\r'
    · rw [if_pos h17] at h
      exact Except.noConfusion h
    rw [if_neg h17] at h
    by_cases h18 : c = '\t'
    · rw [if_pos h18] at h
      exact Except.noConfusion h
    rw [if_neg h18] at h
    by_cases h19 : c = '\n'
    · rw [if_pos h19] at h
      exact Except.noConfusion h
    rw [if_neg h19] at h
    by_cases h20 : c = '"'
    · rw [if_pos h20] at h
      exact Or.inl (handle_string_error st0 hA hstart hlt e h)
    rw [if_neg h20] at h
    by_cases h21 : rustIsNumeric c = true
    · rw [if_pos h21] at h
      exact Or.inr (handle_number_error st0 c hA hstart hpk2 h21 e h)
    rw [if_neg h21] at h
    by_cases h22 : rustIsAlphabetic c = true
    · rw [if_pos h22] at h
      exact (handle_identifier_error st0 hA hstart hlt e h).elim
    rw [if_neg h22] at h
    exact Except.noConfusion h

theorem scanLoop_ascii_errors (fuel : Nat) (st : Scanner) (hA : AsciiSource st.source)
    (hcur : st.current ≤ st.source.length) (e : Panic)
    (h : scanLoop fuel st = Except.error e) :
    e = Panic.unterminatedString ∨ e = Panic.todoDecimal := by
  induction fuel generalizing st with
  | zero =>
    unfold scanLoop at h
    exact Except.noConfusion h
  | succ fuel ih =>
    unfold scanLoop at h
    by_cases hend : st.isAtEnd = true
    · rw [if_pos hend] at h
      exact Except.noConfusion h
    · rw [if_neg hend] at h
      have hlt : st.current < st.source.length :=
        lt_of_not_atEnd st ((Bool.not_eq_true _) ▸ hend)
      cases hs : Scanner.scan_token { st with start := st.current } with
      | error e2 =>
        rw [hs] at h
        injection h with h
        subst h
        exact scan_token_ascii_errors { st with start := st.current } hA rfl hlt _ hs
      | ok st2 =>
        rw [hs] at h
        have hstep0 := scan_token_step _ _ hs
        have hstep : Step st st2 := ⟨hstep0.src, hstep0.cur_lt, hstep0.cur_le, hstep0.line, hstep0.toks⟩
        apply ih st2 _ _ h
        · rw [hstep.src]
          exact hA
        · rw [hstep.src]
          exact hstep.cur_le

theorem scan_tokens_ascii_errors (src : List Char) (hA : AsciiSource src) (e : Panic)
    (h : scan_tokens src = Except.error e) :
    e = Panic.unterminatedString ∨ e = Panic.todoDecimal := by
  unfold scan_tokens Scanner.scan_tokens Scanner.new at h
  dsimp only at h
  cases hl : scanLoop (src.length - 0)
      { source := src, tokens := [], start := 0, current := 0, line := 1 } with
  | error e2 =>
    rw [hl] at h
    injection h with h
    subst h
    exact scanLoop_ascii_errors _ _ hA (by simp) _ hl
  | ok stf =>
    rw [hl] at h
    exact Except.noConfusion h

/-! Claim theorems. -/

/-- C1: whenever `scan_tokens` returns a token sequence, it is non-empty, its
last element is the single end-of-input token with empty lexeme and no
literal, its line is the line the scan ended on (one plus the newline count
of the whole source), and no Eof token occurs anywhere earlier. -/
theorem scan_tokens_eof (src : List Char) (ts : List Token)
    (h : scan_tokens src = Except.ok ts) :
    ∃ ts', ts = ts' ++ [eofToken (1 + countNl src)] ∧
      ∀ t ∈ ts', t.type ≠ TokenType.eof := by
  obtain ⟨stf, hI, hsrc, hcur, hts⟩ := scan_tokens_spec src ts h
  have hline : stf.line = 1 + countNl src := by
    rw [hI.line_eq, hsrc, hcur, List.take_length]
  refine ⟨stf.tokens, ?_, hI.no_eof⟩
  rw [hts, hline]

theorem scan_tokens_eof_witness :
    scan_tokens [] = Except.ok [eofToken 1] ∧
    ∃ ts', [eofToken 1] = ts' ++ [eofToken (1 + countNl [])] ∧
      ∀ t ∈ ts', t.type ≠ TokenType.eof :=
  ⟨by decide, scan_tokens_eof [] [eofToken 1] (by decide)⟩

/-- C2: on an unterminated string the scan does not fail with a structured
error carrying the start line; it panics with the bare message
`"Unterminated string"` (modelled by `Panic.unterminatedString`, which
carries no line number), aborting the scan. -/
theorem unterminated_string_panics :
    scan_tokens ("\"unterminated".data) = Except.error Panic.unterminatedString := by
  decide

/-- C3: an unrecognized character is silently skipped: no diagnostic of any
kind is recorded — scanning "@" gives a result identical to scanning the
empty source — and scanning continues, as the sources "@#$" and "@;" show. -/
theorem unexpected_char_silently_skipped :
    scan_tokens ("@".data) = scan_tokens [] ∧
    scan_tokens ("@#$".data) = Except.ok [eofToken 1] ∧
    scan_tokens ("@;".data) = Except.ok
      [{ type := TokenType.semicolon, source := (";".data), literal := Literal.empty,
         line := 1 }, eofToken 1] :=
  ⟨by decide, by decide, by decide⟩

/-- C4 counterexample: scanning "x1 and_2" does not yield two identifier
tokens followed by Eof. -/
theorem x1_and2_cex :
    (scan_tokens ("x1 and_2".data)).map (List.map Token.type) ≠
      Except.ok [TokenType.identifier, TokenType.identifier, TokenType.eof] := by
  decide

/-- C4 amended: "x1 and_2" scans as identifier "x1", keyword `and`, then
number 2: the underscore is not alphanumeric, so it ends the maximal run
after "and" (an exact keyword match) and is itself silently skipped; "andd2"
scans as a single identifier, confirming maximal munch and that keywords
require an exact full-lexeme match. -/
theorem x1_and2_tokens :
    scan_tokens ("x1 and_2".data) = Except.ok
      [{ type := TokenType.identifier, source := ("x1".data), literal := Literal.empty, line := 1 },
       { type := TokenType.and, source := ("and".data), literal := Literal.empty, line := 1 },
       { type := TokenType.number, source := ("2".data), literal := Literal.float ("2".data), line := 1 },
       eofToken 1] ∧
    scan_tokens ("andd2".data) = Except.ok
      [{ type := TokenType.identifier, source := ("andd2".data), literal := Literal.empty, line := 1 },
       eofToken 1] :=
  ⟨by decide, by decide⟩

/-- C5: a maximal digit run immediately followed by a decimal point is not
rejected with a structured diagnostic: the code hits the `todo!` macro and
panics, aborting the program. -/
theorem decimal_point_todo_panics :
    scan_tokens ("1.".data) = Except.error Panic.todoDecimal ∧
    scan_tokens ("123.5".data) = Except.error Panic.todoDecimal :=
  ⟨by decide, by decide⟩

/-- C6 counterexample: number mode is entered by any Unicode-numeric character
(`char::is_numeric`); on the source "½0" the scan reaches the float parse
with a string it cannot parse, and the `unwrap()` panics. -/
theorem number_parse_fault_cex :
    scan_tokens ("½0".data) = Except.error Panic.parseFault := by
  decide

/-- C6 amended: on sources made of single-byte (ASCII) characters the claim
holds: the error branch of the numeric parse is unreachable, because an ASCII
character entering number mode is a decimal digit and the sliced digit run
always parses. -/
theorem ascii_number_parse_ok (src : List Char) (hA : AsciiSource src) :
    scan_tokens src ≠ Except.error Panic.parseFault := by
  intro h
  rcases scan_tokens_ascii_errors src hA _ h with h2 | h2 <;> exact Panic.noConfusion h2

theorem ascii_number_parse_ok_witness :
    AsciiSource ("123".data) ∧
    scan_tokens ("123".data) ≠ Except.error Panic.parseFault :=
  ⟨by decide, ascii_number_parse_ok ("123".data) (by decide)⟩

/-- C7 counterexample: a properly terminated string containing a non-ASCII
character panics on a byte index that is not a character boundary instead of
producing a string token. -/
theorem string_slice_fault_cex :
    scan_tokens ("\"é\"".data) = Except.error Panic.sliceFault := by
  decide

/-- C8: token lines are monotonically non-decreasing in output order, and
every line is at least 1: the counter starts at 1 and is only ever
incremented. -/
theorem token_lines_monotone (src : List Char) (ts : List Token)
    (h : scan_tokens src = Except.ok ts) :
    List.Pairwise (fun a b => a.line ≤ b.line) ts ∧ ∀ t ∈ ts, 1 ≤ t.line := by
  obtain ⟨stf, hI, hsrc, hcur, hts⟩ := scan_tokens_spec src ts h
  subst hts
  constructor
  · rw [List.pairwise_append]
    refine ⟨hI.line_mono, by simp, ?_⟩
    intro a ha b hb
    simp at hb
    rw [hb]
    show a.line ≤ stf.line
    obtain ⟨n, hn, hl, _⟩ := hI.tok_emit a ha
    rw [hl, hI.line_eq]
    have := countNl_take_le stf.source n stf.current hn
    omega
  · intro t ht
    rcases List.mem_append.mp ht with hin | hin
    · obtain ⟨n, hn, hl, _⟩ := hI.tok_emit t hin
      rw [hl]
      omega
    · simp at hin
      rw [hin]
      show 1 ≤ stf.line
      rw [hI.line_eq]
      omega

theorem token_lines_monotone_witness :
    scan_tokens ("a\nb".data) = Except.ok
      [{ type := TokenType.identifier, source := ("a".data), literal := Literal.empty, line := 1 },
       { type := TokenType.identifier, source := ("b".data), literal := Literal.empty, line := 2 },
       eofToken 2] ∧
    (List.Pairwise (fun a b => a.line ≤ b.line)
      [{ type := TokenType.identifier, source := ("a".data), literal := Literal.empty, line := 1 },
       { type := TokenType.identifier, source := ("b".data), literal := Literal.empty, line := 2 },
       eofToken 2] ∧
     ∀ t ∈ [{ type := TokenType.identifier, source := ("a".data), literal := Literal.empty, line := 1 },
       { type := TokenType.identifier, source := ("b".data), literal := Literal.empty, line := 2 },
       eofToken 2], 1 ≤ t.line) :=
  ⟨by decide, token_lines_monotone ("a\nb".data) _ (by decide)⟩

/-- C9 counterexample: in the source with a string literal spanning lines 1
and 2, the string token's first character (the opening quote) is on line 1,
but the recorded line is 2 — the line of the closing quote. -/
theorem string_line_cex :
    scan_tokens ("\"a\nb\"".data) = Except.ok
      [{ type := TokenType.string, source := ("\"a\nb\"".data),
         literal := Literal.string ("a\nb".data), line := 2 }, eofToken 2] ∧
    (2 : Nat) ≠ 1 :=
  ⟨by decide, by decide⟩

/-- C9 amended: each token's line field is the scanner's line counter at the
token's emission point: one plus the number of newlines among the first `n`
source characters, where `n` is the position at which that token ends — for
an ordinary token, the same `n` is the end index of the byte slice that
produced the token's lexeme, and for the final Eof token `n` is the end of
the input. For a string literal spanning several lines this is the closing
quote's line, not the opening quote's. -/
theorem token_line_at_emission (src : List Char) (ts : List Token)
    (h : scan_tokens src = Except.ok ts) :
    ∀ t ∈ ts, ∃ n, n ≤ src.length ∧ t.line = 1 + countNl (src.take n) ∧
      ((∃ a, byteSlice src a n = some t.source) ∨
        (t.type = TokenType.eof ∧ n = src.length)) := by
  obtain ⟨stf, hI, hsrc, hcur, hts⟩ := scan_tokens_spec src ts h
  subst hts
  intro t ht
  rcases List.mem_append.mp ht with hin | hin
  · obtain ⟨n, hn, hl, a, hab⟩ := hI.tok_emit t hin
    refine ⟨n, by omega, ?_, Or.inl ⟨a, ?_⟩⟩
    · rw [hl, hsrc]
    · rw [← hsrc]
      exact hab
  · simp at hin
    rw [hin]
    refine ⟨src.length, le_refl _, ?_, Or.inr ⟨rfl, rfl⟩⟩
    show stf.line = 1 + countNl (src.take src.length)
    rw [hI.line_eq, hsrc, hcur]

theorem token_line_at_emission_witness :
    scan_tokens ("x\ny".data) = Except.ok
      [{ type := TokenType.identifier, source := ("x".data), literal := Literal.empty, line := 1 },
       { type := TokenType.identifier, source := ("y".data), literal := Literal.empty, line := 2 },
       eofToken 2] ∧
    ∀ t ∈ [{ type := TokenType.identifier, source := ("x".data), literal := Literal.empty, line := 1 },
       { type := TokenType.identifier, source := ("y".data), literal := Literal.empty, line := 2 },
       eofToken 2],
      ∃ n, n ≤ ("x\ny".data).length ∧ t.line = 1 + countNl (("x\ny".data).take n) ∧
        ((∃ a, byteSlice ("x\ny".data) a n = some t.source) ∨
          (t.type = TokenType.eof ∧ n = ("x\ny".data).length)) :=
  ⟨by decide, token_line_at_emission ("x\ny".data) _ (by decide)⟩

/-- C10: on a source made only of single-byte (ASCII) characters, every
string-slicing operation the scanner performs is in bounds and on character
boundaries — the scan never raises the slice panic — and every returned
token's lexeme is exactly the substring of the source between its start and
end character offsets. -/
theorem ascii_slicing_safe (src : List Char) (hA : AsciiSource src) :
    scan_tokens src ≠ Except.error Panic.sliceFault ∧
    ∀ ts, scan_tokens src = Except.ok ts → ∀ t ∈ ts,
      ∃ a b, a ≤ b ∧ b ≤ src.length ∧ t.source = (src.take b).drop a := by
  constructor
  · intro h
    rcases scan_tokens_ascii_errors src hA _ h with h2 | h2 <;> exact Panic.noConfusion h2
  · intro ts h t ht
    obtain ⟨stf, hI, hsrc, hcur, hts⟩ := scan_tokens_spec src ts h
    subst hts
    rcases List.mem_append.mp ht with hin | hin
    · obtain ⟨n, hn, hl, a, hab⟩ := hI.tok_emit t hin
      rw [hsrc] at hab
      obtain ⟨h1, h2, h3⟩ := byteSlice_some_ascii src a n t.source hA hab
      exact ⟨a, n, h1, h2, h3⟩
    · simp at hin
      rw [hin]
      exact ⟨0, 0, le_refl _, by omega, by simp [eofToken]⟩

theorem ascii_slicing_safe_witness :
    AsciiSource ("(a)".data) ∧
    (scan_tokens ("(a)".data) ≠ Except.error Panic.sliceFault ∧
     ∀ ts, scan_tokens ("(a)".data) = Except.ok ts → ∀ t ∈ ts,
       ∃ a b, a ≤ b ∧ b ≤ ("(a)".data).length ∧ t.source = (("(a)".data).take b).drop a) :=
  ⟨by decide, ascii_slicing_safe ("(a)".data) (by decide)⟩

/-- C7 amended: on a source of single-byte (ASCII) characters, string mode
run on input containing a closing quote emits exactly one string token whose
decoded literal value is the character sequence strictly between the two
quotes, with no escape processing, and the line counter grows by exactly the
number of newlines consumed inside the string. -/
theorem terminated_string_token (st : Scanner) (body rest : List Char)
    (hA : AsciiSource st.source)
    (hcur : st.current = st.start + 1)
    (hdrop : st.source.drop st.start = '"' :: body ++ '"' :: rest)
    (hbody : '"' ∉ body) :
    st.handle_string = Except.ok { st with current := st.current + body.length + 1, line := st.line + countNl body, tokens := st.tokens ++ [{ type := TokenType.string, source := '"' :: body ++ ['"'], literal := Literal.string body, line := st.line + countNl body }] } := by
  have hlen_src : st.source.length = st.start + 2 + body.length + rest.length := by
    have h0 := congrArg List.length hdrop
    rw [List.length_drop] at h0
    simp at h0
    have h1 : st.start ≤ st.source.length := by
      by_contra hgt
      rw [List.drop_eq_nil_of_le (by omega)] at hdrop
      exact List.noConfusion hdrop
    omega
  have hrem : st.source.drop st.current = body ++ '"' :: rest := by
    rw [hcur, ← List.drop_drop, hdrop]
    rfl
  have htw : (body ++ '"' :: rest).takeWhile (fun c => decide (c ≠ '"')) = body := by
    apply takeWhile_append_all
    · intro c hc
      simp only [decide_eq_true_eq]
      intro heq
      subst heq
      exact hbody hc
    · decide
  have hq2 : st.source[st.start + 1 + body.length]? = some '"' := by
    have h0 : (st.source.drop st.current)[body.length]? = some '"' := by
      rw [hrem, List.getElem?_append_right (le_refl body.length)]
      simp
    rw [List.getElem?_drop, hcur] at h0
    have h1 : st.start + 1 + body.length = st.start + 1 + body.length := rfl
    exact h0
  unfold Scanner.handle_string Scanner.remaining
  rw [hrem, htw]
  dsimp only
  have hend : ({ source := st.source, tokens := st.tokens, start := st.start, current := st.current + body.length, line := st.line + countNl body } : Scanner).isAtEnd = false := by
    unfold Scanner.isAtEnd Scanner.peek
    dsimp only
    rw [hcur, hq2]
    rfl
  rw [if_neg (by rw [hend]; simp)]
  have hbs : byteSlice st.source (st.start + 1) (st.current + body.length + 1 - 1) = some body := by
    have h1 : st.current + body.length + 1 - 1 = st.start + 1 + body.length := by omega
    rw [h1, byteSlice_ascii st.source (st.start + 1) (st.start + 1 + body.length) hA (by omega) (by omega)]
    congr 1
    rw [List.drop_take]
    have h2 : st.start + 1 + body.length - (st.start + 1) = body.length := by omega
    rw [h2, ← hcur, hrem]
    exact List.take_left body _
  rw [hbs]
  dsimp only
  have hlex : byteSlice st.source st.start (st.current + body.length + 1) = some ('"' :: body ++ ['"']) := by
    have h1 : st.current + body.length + 1 = st.start + 1 + body.length + 1 := by omega
    rw [h1, byteSlice_ascii st.source st.start (st.start + 1 + body.length + 1) hA (by omega) (by omega)]
    congr 1
    rw [List.drop_take]
    have h2 : st.start + 1 + body.length + 1 - st.start = body.length + 1 + 1 := by omega
    rw [h2, hdrop]
    simp only [List.cons_append]
    rw [List.take_succ_cons]
    congr 1
    have h3 : body ++ '"' :: rest = (body ++ ['"']) ++ rest := by simp
    rw [h3]
    have h4 : body.length + 1 = (body ++ ['"']).length := by simp
    rw [h4, List.take_left]
  rw [add_token_of_slice _ TokenType.string (Literal.string body) _ hlex]

theorem terminated_string_token_witness :
    Scanner.handle_string { source := ("\"hi\"".data), tokens := [], start := 0, current := 1, line := 1 } =
      Except.ok { source := ("\"hi\"".data), tokens := [{ type := TokenType.string, source := ("\"hi\"".data), literal := Literal.string ("hi".data), line := 1 }], start := 0, current := 4, line := 1 } :=
  terminated_string_token { source := ("\"hi\"".data), tokens := [], start := 0, current := 1, line := 1 } ("hi".data) [] (by decide) (by decide) (by decide) (by decide)

end Lox
